import Mathlib

/-!
Verification of the acoustic-punctuation sequence-to-sequence model
(`model.py`, `helpers.py`) against its specification.

The model is embedded shallowly over exact rationals.  Tensors become
nested lists: a vector is `List ℚ`, a matrix a `List (List ℚ)`.  The code's
batched (time, batch, feature) tensors are embedded batch-major, as a list
of per-item records (`DecItem`), the code's transposes becoming this
per-item view.  Nonlinearities of the underlying numeric library
(exp, tanh, the GRU gate arithmetic, the readout negative log-likelihood)
are parameters of the embedding (`DecParams`), since every claim proved
here is structural in them.
-/

/-- Elementwise vector addition (truncating, like a zip). -/
def vadd (u v : List ℚ) : List ℚ := List.zipWith (· + ·) u v

/-- Scaling a vector by a scalar. -/
def vscale (c : ℚ) (v : List ℚ) : List ℚ := v.map (fun x => c * x)

/-- Dot product of two vectors. -/
def dot (u v : List ℚ) : ℚ := (List.zipWith (· * ·) u v).sum

/-- Parameters and primitive operations of the decoder pipeline.
`d` is the representation feature dimension (`representation_dim`);
`f` stands for the exponential used by the attention softmax;
`score` is the content-based energy of (state, representation position);
`feedbackOf` embeds a previous output token as feedback;
`step` is one (masked) step of the gated recurrent transition;
`stepCost` is the readout negative log-likelihood of a target token given
(state, feedback, context); `init` derives the initial state from the
representation's position-0 row (`GRUInitialState`). -/
structure DecParams where
  d : ℕ
  f : ℚ → ℚ
  score : List ℚ → List ℚ → ℚ
  feedbackOf : Int → List ℚ
  step : List ℚ → List ℚ → List ℚ → ℚ → List ℚ
  stepCost : List ℚ → List ℚ → List ℚ → Int → ℚ
  init : List ℚ → List ℚ

/-- One batch item of a training batch for `Decoder.cost`:
its source representation (time-major rows of features), source mask,
target token sequence, and target mask. -/
structure DecItem where
  rep : List (List ℚ)
  smask : List ℚ
  tgt : List Int
  tmask : List ℚ
  deriving DecidableEq

/-- The unnormalized masked attention scores: the per-position energies of
the content match, exponentiated (through `p.f`) and multiplied by the
source mask. -/
def attentionUnnorm (p : DecParams) (state : List ℚ) (rep : List (List ℚ))
    (smask : List ℚ) : List ℚ :=
  List.zipWith (fun m e => m * p.f e) smask (rep.map (p.score state))

/-- Modelled from the spec: the masked-softmax attention weights of
`SequenceContentAttention` (the class itself lives in the external blocks
library; spec 4.4: positions with mask 0 are excluded from the
normalization denominator and receive exactly weight 0). -/
def attentionWeights (p : DecParams) (state : List ℚ) (rep : List (List ℚ))
    (smask : List ℚ) : List ℚ :=
  (attentionUnnorm p state rep smask).map
    (· / (attentionUnnorm p state rep smask).sum)

/-- The attention context ("glimpse"): the weighted sum of representation
rows under the masked-softmax weights. -/
def attentionContext (p : DecParams) (state : List ℚ) (rep : List (List ℚ))
    (smask : List ℚ) : List ℚ :=
  (List.zipWith (fun w r => vscale w r) (attentionWeights p state rep smask) rep).foldl
    vadd (List.replicate p.d 0)

/-- Modelled from the spec: raises DegenerateInputError when every source
position of the item is masked out (spec 4.4 / error taxonomy 7); otherwise
behaves as the attention weight computation.  The error branch is the
spec's demand; the code itself has no such check. -/
def attentionWeightsChecked (p : DecParams) (state : List ℚ)
    (rep : List (List ℚ)) (smask : List ℚ) : Except String (List ℚ) :=
  if smask.all (· = 0) then Except.error "DegenerateInputError"
  else Except.ok (attentionWeights p state rep smask)

/-- Teacher-forced per-step masked costs of `SequenceGenerator.cost_matrix`
for one batch item: at every step the feedback is the embedding of the
previous target token (the sentinel -1 before the first step), the context
is attention over the source representation, the per-step cost is the
readout negative log-likelihood of the current target token, multiplied by
that step's target mask (blocks multiplies the cost matrix by the mask);
the state advances by one masked transition step. -/
def costSteps (p : DecParams) (rep : List (List ℚ)) (smask : List ℚ) :
    List ℚ → Int → List (Int × ℚ) → List ℚ
  | _, _, [] => []
  | s, prev, (tok, m) :: rest =>
    let fb := p.feedbackOf prev
    let ctx := attentionContext p s rep smask
    (p.stepCost s fb ctx tok * m) ::
      costSteps p rep smask (p.step s fb ctx m) tok rest

/-- The same step recursion as `costSteps` but returning the raw (unmasked)
per-step negative log-likelihood costs. -/
def rawCostSteps (p : DecParams) (rep : List (List ℚ)) (smask : List ℚ) :
    List ℚ → Int → List (Int × ℚ) → List ℚ
  | _, _, [] => []
  | s, prev, (tok, m) :: rest =>
    let fb := p.feedbackOf prev
    let ctx := attentionContext p s rep smask
    p.stepCost s fb ctx tok ::
      rawCostSteps p rep smask (p.step s fb ctx m) tok rest

/-- The masked cost column of one batch item (one column of the code's
(T_target × batch) cost matrix, masked as blocks does). -/
def cost_matrix_item (p : DecParams) (it : DecItem) : List ℚ :=
  costSteps p it.rep it.smask (p.init (it.rep.headD [])) (-1)
    (it.tgt.zip it.tmask)

/-- One item's contribution to `Decoder.cost`: the code multiplies the cost
matrix by the target mask once more and sums. -/
def itemMaskedCost (p : DecParams) (it : DecItem) : ℚ :=
  (List.zipWith (· * ·) (cost_matrix_item p it) it.tmask).sum

/-- `Decoder.cost` (model.py 418-437): the summed, target-masked cost
matrix divided by the batch size (the second dimension of the transposed
target mask, i.e. the number of batch items). -/
def Decoder.cost (p : DecParams) (batch : List DecItem) : ℚ :=
  ((batch.map (itemMaskedCost p)).sum) / (batch.length : ℚ)

/-- The raw cost column of one item, before any mask is applied. -/
def rawCostItem (p : DecParams) (it : DecItem) : List ℚ :=
  rawCostSteps p it.rep it.smask (p.init (it.rep.headD [])) (-1)
    (it.tgt.zip it.tmask)

/-- A structurally valid batch item: masks have the shapes of the
sequences they mask, and the source is nonempty. -/
def ItemValid (it : DecItem) : Prop :=
  it.smask.length = it.rep.length ∧ it.tmask.length = it.tgt.length ∧
    it.rep ≠ []

/-- `it'` is `it` with extra fully-masked positions appended to the source
representation/mask and to the target sequence/mask; appended
representation rows carry the representation feature dimension `d`. -/
def ItemPadded (d : ℕ) (it it' : DecItem) : Prop :=
  ∃ repPad smaskPad tgtPad tmaskPad,
    it'.rep = it.rep ++ repPad ∧
    it'.smask = it.smask ++ smaskPad ∧
    it'.tgt = it.tgt ++ tgtPad ∧
    it'.tmask = it.tmask ++ tmaskPad ∧
    smaskPad.length = repPad.length ∧
    tmaskPad.length = tgtPad.length ∧
    (∀ m ∈ smaskPad, m = (0 : ℚ)) ∧
    (∀ m ∈ tmaskPad, m = (0 : ℚ)) ∧
    (∀ v ∈ repPad, v.length = d)

/-- `Decoder.generate`'s inner loop, `SequenceGenerator.generate` of the
blocks library: iterate the free-running decode step exactly `n` times,
collecting one emitted token per step; there is no early-exit branch. -/
def sequence_generator_generate {σ : Type} (stepFn : σ → σ × Int) :
    σ → ℕ → List Int
  | _, 0 => []
  | s, n + 1 =>
    let r := stepFn s
    r.2 :: sequence_generator_generate stepFn r.1 n

/-- `Decoder.generate` (model.py 439-449): runs the sequence generator for
`n_steps = 2 * length` where `length = representation.shape[0]`. -/
def Decoder.generate {σ : Type} (stepFn : σ → σ × Int) (s0 : σ)
    (representation : List (List (List ℚ))) : List Int :=
  sequence_generator_generate stepFn s0 (2 * representation.length)

/-- `LookupFeedbackWMT15.feedback` (model.py 29-43): negative outputs are
first clamped to 0 for the table lookup, then a switch replaces the looked
up row of any negative output by the zero vector of the feedback
dimension. -/
def LookupFeedbackWMT15.feedback (table : List (List ℚ)) (fdim : ℕ)
    (outputs : List Int) : List (List ℚ) :=
  let outputsFlatZeros := outputs.map (fun o => if o < 0 then 0 else o)
  List.zipWith
    (fun o oz => if o < 0 then List.replicate fdim (0 : ℚ)
                 else table.getD oz.toNat [])
    outputs outputsFlatZeros

/-- Affine map followed by a pointwise activation: one MLP layer, the
`initial_transformer` of `GRUInitialState` (activation `tanh` in the
code, kept abstract). -/
def mlpApply (act : ℚ → ℚ) (W : List (List ℚ)) (b : List ℚ)
    (x : List ℚ) : List ℚ :=
  List.zipWith (fun row bi => act (dot row x + bi)) W b

/-- `GRUInitialState.initial_states` (model.py 351-356): the MLP applied to
`attended[0, :, -attended_dim:]`, the last `attendedDim` features of the
representation's position-0 row (per batch item). -/
def GRUInitialState.initial_states (act : ℚ → ℚ) (W : List (List ℚ))
    (b : List ℚ) (attendedDim : ℕ) (attended : List (List ℚ)) : List ℚ :=
  let row0 := attended.headD []
  mlpApply act W b (row0.drop (row0.length - attendedDim))

/-- Modelled from the spec: tanh(affine(...)) over the backward-direction
slice of the representation at time position 0, where the backward half of
a forward‖backward concatenation of width 2*stateDim starts at index
stateDim. -/
def initialStateSpec (act : ℚ → ℚ) (W : List (List ℚ)) (b : List ℚ)
    (stateDim : ℕ) (attended : List (List ℚ)) : List ℚ :=
  mlpApply act W b ((attended.headD []).drop stateDim)

/-- Elementwise maximum of a nonempty stack of rank-3 tensors:
`tensor.max(tensor.stack([...], axis=0), axis=0)`. -/
def maxTensors : List (List (List (List ℚ))) → List (List (List ℚ))
  | [] => []
  | [x] => x
  | x :: y :: rest =>
    List.zipWith (List.zipWith (List.zipWith max)) x (maxTensors (y :: rest))

/-- `merge_representations` (helpers.py 29-30): stack the word and audio
representations along a new axis and take the maximum along it. -/
def merge_representations (words audio : List (List (List ℚ))) :
    List (List (List ℚ)) :=
  maxTensors [words, audio]

/-- `create_multitask_model` cost wiring (helpers.py 50-52): the words cost
is first reassigned to words+audio, then the audio cost is added again. -/
def create_multitask_model_cost (wordsCost audioCost : ℚ) : ℚ :=
  let wordsCost2 := wordsCost + audioCost
  wordsCost2 + audioCost

/-- A parameter dictionary as produced by one model's Selector: an
association list of tensor name to tensor shape. -/
abbrev ParamDict := List (String × List ℕ)

/-- One insertion into a merged dictionary, python-dict style: an existing
key has its value replaced, a new key is appended. -/
def dictInsert (acc : ParamDict) (kv : String × List ℕ) : ParamDict :=
  if kv.1 ∈ acc.map Prod.fst then
    acc.map (fun e => if e.1 = kv.1 then (e.1, kv.2) else e)
  else acc ++ [kv]

/-- `toolz.merge` of the per-model parameter dicts: later entries override
earlier entries with the same name. -/
def dictMergeAll (ds : List ParamDict) : ParamDict :=
  ds.foldl (fun acc dct => dct.foldl dictInsert acc) []

/-- `print_parameteters` (helpers.py 126-134): merge all models' parameter
dicts and sum `np.product(shape)` over the merged entries. -/
def print_parameteters (models : List ParamDict) : ℕ :=
  ((dictMergeAll models).map (fun e => e.2.prod)).sum

/-- Assemble batch items from per-item representations, source masks,
target sequences and target masks (the batch-major rows of the code's
matrices). -/
def mkBatch (reps : List (List (List ℚ))) (smasks : List (List ℚ))
    (tgts : List (List Int)) (tmasks : List (List ℚ)) : List DecItem :=
  List.zipWith (fun r mtt => DecItem.mk r mtt.1 mtt.2.1 mtt.2.2)
    reps (List.zip smasks (List.zip tgts tmasks))

/-- The training cost assembled by `use_decoder_on_representations`
(helpers.py 114-117): `decoder.cost` is called with the punctuation-marks
mask as both the source-representation mask and the target mask. -/
def use_decoder_on_representations_cost (p : DecParams)
    (training_representation : List (List (List ℚ)))
    (punctuation_marks : List (List Int))
    (punctuation_marks_mask : List (List ℚ)) : ℚ :=
  Decoder.cost p
    (mkBatch training_representation punctuation_marks_mask
      punctuation_marks punctuation_marks_mask)

/-- Quick check: a tiny concrete decoder parameterization used in witnesses. -/
def tinyParams : DecParams where
  d := 1
  f := fun x => x + 1
  score := fun s r => (List.zipWith (· * ·) s r).sum
  feedbackOf := fun t => [(t : ℚ)]
  step := fun s fb ctx m => vadd s (vadd (vscale m fb) ctx)
  stepCost := fun s fb ctx tok => (s.sum + fb.sum + ctx.sum) + (tok : ℚ)
  init := fun r => r

theorem sequence_generator_generate_length {σ : Type} (stepFn : σ → σ × Int) :
    ∀ (n : ℕ) (s : σ), (sequence_generator_generate stepFn s n).length = n := by
  intro n
  induction n with
  | zero => intro s; rfl
  | succ k ih =>
    intro s
    simp [sequence_generator_generate, ih]

/-- C10: the combined cost returned by `create_multitask_model` equals the
word-path cost plus twice the audio-path cost (the audio term is added in
two successive additions), not the plain sum of the two costs. -/
theorem multitask_cost_double_audio (wordsCost audioCost : ℚ) :
    create_multitask_model_cost wordsCost audioCost =
      wordsCost + 2 * audioCost := by
  unfold create_multitask_model_cost
  ring

/-- C4: for every source representation of length at least 1,
`Decoder.generate` runs the generator for exactly `2 * source_length` steps
and returns a token sequence of length exactly `2 * source_length`,
whatever the step function emits (so no end-of-sequence symbol terminates
it early). -/
theorem decoder_generate_length {σ : Type} (stepFn : σ → σ × Int) (s0 : σ)
    (representation : List (List (List ℚ)))
    (_h : 1 ≤ representation.length) :
    (Decoder.generate stepFn s0 representation).length =
      2 * representation.length := by
  unfold Decoder.generate
  exact sequence_generator_generate_length stepFn _ s0

theorem decoder_generate_length_witness :
    1 ≤ [[[ (1 : ℚ) ]]].length ∧
      (Decoder.generate (fun s => (s + 1, 9)) (0 : Int)
        [[[ (1 : ℚ) ]]]).length = 2 * [[[ (1 : ℚ) ]]].length :=
  ⟨by decide, decoder_generate_length (fun s => (s + 1, 9)) 0 _ (by decide)⟩

/-- C6: the decoder's initial recurrent state equals the activation
(`tanh` in the code) of an affine map applied to the backward-direction
slice (the last `attendedDim` features, equivalently the second half of a
representation of width `2 * attendedDim`) of the representation at time
position 0. -/
theorem gru_initial_state_backward_slice (act : ℚ → ℚ) (W : List (List ℚ))
    (b : List ℚ) (attendedDim : ℕ) (attended : List (List ℚ))
    (h : (attended.headD []).length = 2 * attendedDim) :
    GRUInitialState.initial_states act W b attendedDim attended =
      initialStateSpec act W b attendedDim attended := by
  show mlpApply act W b
      ((attended.headD []).drop ((attended.headD []).length - attendedDim)) =
    mlpApply act W b ((attended.headD []).drop attendedDim)
  rw [h]
  have h2 : 2 * attendedDim - attendedDim = attendedDim := by omega
  rw [h2]

theorem gru_initial_state_backward_slice_witness :
    ([[ (5 : ℚ), 7 ]].headD []).length = 2 * 1 ∧
      GRUInitialState.initial_states (fun x => x) [[1]] [0] 1
          [[ (5 : ℚ), 7 ]] =
        initialStateSpec (fun x => x) [[1]] [0] 1 [[ (5 : ℚ), 7 ]] :=
  ⟨by decide,
   gru_initial_state_backward_slice (fun x => x) [[1]] [0] 1 _ (by decide)⟩

theorem getD_zipWith_of_lt {α β γ : Type} (f : α → β → γ) (xs : List α)
    (ys : List β) (i : ℕ) (hx : i < xs.length) (hy : i < ys.length)
    (da : α) (db : β) (dc : γ) :
    (List.zipWith f xs ys).getD i dc = f (xs.getD i da) (ys.getD i db) := by
  rw [List.getD_eq_getElem _ _ (by rw [List.length_zipWith]; omega),
      List.getD_eq_getElem _ _ hx, List.getD_eq_getElem _ _ hy,
      List.getElem_zipWith]

/-- C5: the feedback of any negative output value (the sentinel emitted as
the initial output, `SoftmaxEmitter(initial_output=-1)`) is exactly the
zero vector of the feedback dimension, and the feedback of any
non-negative token is that token's embedding-table row. -/
theorem lookup_feedback_zero_sentinel (table : List (List ℚ)) (fdim : ℕ)
    (outputs : List Int) (i : ℕ) (hi : i < outputs.length) :
    (outputs.getD i 0 < 0 →
      (LookupFeedbackWMT15.feedback table fdim outputs).getD i [] =
        List.replicate fdim 0) ∧
    (0 ≤ outputs.getD i 0 →
      (LookupFeedbackWMT15.feedback table fdim outputs).getD i [] =
        table.getD (outputs.getD i 0).toNat []) := by
  unfold LookupFeedbackWMT15.feedback
  have hmap : i < (outputs.map (fun o => if o < 0 then 0 else o)).length := by
    simpa using hi
  rw [getD_zipWith_of_lt _ _ _ i hi hmap (0 : Int) (0 : Int) []]
  have hmapD : (outputs.map (fun o => if o < 0 then 0 else o)).getD i 0 =
      (if outputs.getD i 0 < 0 then 0 else outputs.getD i 0) := by
    rw [List.getD_eq_getElem _ _ hmap, List.getD_eq_getElem _ _ hi,
        List.getElem_map]
  rw [hmapD]
  constructor
  · intro hneg
    rw [if_pos hneg]
  · intro hpos
    rw [if_neg (by omega), if_neg (by omega)]

theorem lookup_feedback_zero_sentinel_witness :
    (0 : ℕ) < [(-1 : Int), 1].length ∧
      (([(-1 : Int), 1].getD 0 0 < 0 →
        (LookupFeedbackWMT15.feedback [[ (3 : ℚ) ], [4]] 1
            [(-1 : Int), 1]).getD 0 [] = List.replicate 1 0) ∧
      (0 ≤ [(-1 : Int), 1].getD 0 0 →
        (LookupFeedbackWMT15.feedback [[ (3 : ℚ) ], [4]] 1
            [(-1 : Int), 1]).getD 0 [] =
          [[ (3 : ℚ) ], [4]].getD ([(-1 : Int), 1].getD 0 0).toNat [])) :=
  ⟨by decide, lookup_feedback_zero_sentinel [[ (3 : ℚ) ], [4]] 1
    [(-1 : Int), 1] 0 (by decide)⟩

/-- C8: with both modalities configured, the fused representation is the
elementwise maximum of the word and audio representations at every
(position, batch, feature) index. -/
theorem merge_representations_elementwise_max
    (words audio : List (List (List ℚ))) (t b j : ℕ)
    (ht1 : t < words.length) (ht2 : t < audio.length)
    (hb1 : b < (words.getD t []).length)
    (hb2 : b < (audio.getD t []).length)
    (hj1 : j < ((words.getD t []).getD b []).length)
    (hj2 : j < ((audio.getD t []).getD b []).length) :
    (((merge_representations words audio).getD t []).getD b []).getD j 0 =
      max (((words.getD t []).getD b []).getD j 0)
          (((audio.getD t []).getD b []).getD j 0) := by
  have hmerge : merge_representations words audio =
      List.zipWith (List.zipWith (List.zipWith max)) words audio := rfl
  rw [hmerge, getD_zipWith_of_lt _ _ _ t ht1 ht2 [] [] [],
      getD_zipWith_of_lt _ _ _ b hb1 hb2 [] [] [],
      getD_zipWith_of_lt _ _ _ j hj1 hj2 0 0 0]

theorem merge_representations_elementwise_max_witness :
    (0 : ℕ) < [[[ (1 : ℚ), 5 ]]].length ∧
      ((([[[ (1 : ℚ), 5 ]]].getD 0 []).getD 0 []).getD 1 0 = 5) ∧
      (((merge_representations [[[ (1 : ℚ), 5 ]]]
          [[[ (3 : ℚ), 2 ]]]).getD 0 []).getD 0 []).getD 1 0 =
        max ((([[[ (1 : ℚ), 5 ]]].getD 0 []).getD 0 []).getD 1 0)
            ((([[[ (3 : ℚ), 2 ]]].getD 0 []).getD 0 []).getD 1 0) :=
  ⟨by decide, by decide,
   merge_representations_elementwise_max [[[ (1 : ℚ), 5 ]]]
     [[[ (3 : ℚ), 2 ]]] 0 0 1 (by decide) (by decide) (by decide)
     (by decide) (by decide) (by decide)⟩

theorem of_mem_zipWith {α β γ : Type} (f : α → β → γ) :
    ∀ (as : List α) (bs : List β) (c : γ), c ∈ List.zipWith f as bs →
      ∃ a, a ∈ as ∧ ∃ b, b ∈ bs ∧ c = f a b := by
  intro as
  induction as with
  | nil => intro bs c h; simp at h
  | cons a t ih =>
    intro bs c h
    cases bs with
    | nil => simp at h
    | cons b tb =>
      rw [List.zipWith_cons_cons] at h
      rcases List.mem_cons.mp h with h1 | h2
      · exact ⟨a, by simp, b, by simp, h1⟩
      · obtain ⟨a', ha, b', hb, hc⟩ := ih tb c h2
        exact ⟨a', by simp [ha], b', by simp [hb], hc⟩

theorem zipWith_zero_left {β : Type} (f : ℚ → β → ℚ) (hf : ∀ e, f 0 e = 0) :
    ∀ (ms : List ℚ) (es : List β), (∀ m ∈ ms, m = 0) →
      ∀ x ∈ List.zipWith f ms es, x = 0 := by
  intro ms es hm x hx
  obtain ⟨m, hmm, e, _, hxe⟩ := of_mem_zipWith f ms es x hx
  rw [hxe, hm m hmm, hf]

theorem vadd_zero_right : ∀ (acc v : List ℚ), acc.length ≤ v.length →
    (∀ x ∈ v, x = 0) → vadd acc v = acc := by
  intro acc
  induction acc with
  | nil => intro v _ _; rfl
  | cons a t ih =>
    intro v hlen hz
    cases v with
    | nil => simp at hlen
    | cons x vt =>
      unfold vadd
      rw [List.zipWith_cons_cons, hz x (by simp), add_zero]
      have ht : vadd t vt = t :=
        ih vt (by simpa using hlen) (fun y hy => hz y (by simp [hy]))
      unfold vadd at ht
      rw [ht]

theorem foldl_vadd_zeros : ∀ (zs : List (List ℚ)) (acc : List ℚ),
    (∀ z ∈ zs, acc.length ≤ z.length ∧ ∀ x ∈ z, x = 0) →
    zs.foldl vadd acc = acc := by
  intro zs
  induction zs with
  | nil => intro acc _; rfl
  | cons z t ih =>
    intro acc h
    have hz := h z (by simp)
    rw [List.foldl_cons, vadd_zero_right acc z hz.1 hz.2]
    exact ih acc (fun y hy => h y (by simp [hy]))

theorem foldl_vadd_length_le : ∀ (l : List (List ℚ)) (acc : List ℚ),
    (l.foldl vadd acc).length ≤ acc.length := by
  intro l
  induction l with
  | nil => intro acc; exact le_refl _
  | cons v t ih =>
    intro acc
    refine le_trans (ih (vadd acc v)) ?_
    unfold vadd
    rw [List.length_zipWith]
    omega

theorem headD_append_of_ne_nil {α : Type} (l l2 : List α) (h : l ≠ [])
    (d : α) : (l ++ l2).headD d = l.headD d := by
  cases l with
  | nil => exact absurd rfl h
  | cons a t => rfl

theorem attentionUnnorm_append (p : DecParams) (state : List ℚ)
    (rep repPad : List (List ℚ)) (smask smaskPad : List ℚ)
    (hlen : smask.length = rep.length) :
    attentionUnnorm p state (rep ++ repPad) (smask ++ smaskPad) =
      attentionUnnorm p state rep smask ++
        attentionUnnorm p state repPad smaskPad := by
  unfold attentionUnnorm
  rw [List.map_append]
  exact List.zipWith_append _ _ _ _ _ (by rw [List.length_map]; exact hlen)

theorem attentionUnnorm_zero_mask (p : DecParams) (state : List ℚ)
    (repPad : List (List ℚ)) (smaskPad : List ℚ)
    (hz : ∀ m ∈ smaskPad, m = 0) :
    ∀ x ∈ attentionUnnorm p state repPad smaskPad, x = 0 :=
  zipWith_zero_left _ (fun e => zero_mul (p.f e)) smaskPad _ hz

theorem attentionWeights_length (p : DecParams) (state : List ℚ)
    (rep : List (List ℚ)) (smask : List ℚ) :
    (attentionWeights p state rep smask).length =
      min smask.length rep.length := by
  unfold attentionWeights attentionUnnorm
  rw [List.length_map, List.length_zipWith, List.length_map]

theorem attentionWeights_append_zero (p : DecParams) (state : List ℚ)
    (rep repPad : List (List ℚ)) (smask smaskPad : List ℚ)
    (hlen : smask.length = rep.length)
    (hz : ∀ m ∈ smaskPad, m = 0) :
    attentionWeights p state (rep ++ repPad) (smask ++ smaskPad) =
      attentionWeights p state rep smask ++
        List.replicate (attentionUnnorm p state repPad smaskPad).length 0 := by
  unfold attentionWeights
  rw [attentionUnnorm_append p state rep repPad smask smaskPad hlen]
  rw [List.sum_append,
      List.sum_eq_zero (attentionUnnorm_zero_mask p state repPad smaskPad hz),
      add_zero, List.map_append]
  congr 1
  rw [List.eq_replicate_iff]
  refine ⟨by rw [List.length_map], ?_⟩
  intro b hb
  obtain ⟨x, hx, hxb⟩ := List.mem_map.mp hb
  rw [← hxb, attentionUnnorm_zero_mask p state repPad smaskPad hz x hx,
      zero_div]

theorem attentionContext_append_zero (p : DecParams) (state : List ℚ)
    (rep repPad : List (List ℚ)) (smask smaskPad : List ℚ)
    (hlen : smask.length = rep.length)
    (hz : ∀ m ∈ smaskPad, m = 0)
    (hd : ∀ v ∈ repPad, v.length = p.d) :
    attentionContext p state (rep ++ repPad) (smask ++ smaskPad) =
      attentionContext p state rep smask := by
  unfold attentionContext
  rw [attentionWeights_append_zero p state rep repPad smask smaskPad hlen hz]
  rw [List.zipWith_append _ _ _ _ _
        (by rw [attentionWeights_length, hlen, min_self])]
  rw [List.foldl_append]
  apply foldl_vadd_zeros
  intro z hzmem
  obtain ⟨w, hw, v, hv, hzv⟩ := of_mem_zipWith _ _ _ z hzmem
  have hw0 : w = 0 := List.eq_of_mem_replicate hw
  constructor
  · rw [hzv]
    unfold vscale
    rw [List.length_map, hd v hv]
    exact foldl_vadd_length_le _ _ |>.trans (by rw [List.length_replicate])
  · intro x hx
    rw [hzv] at hx
    unfold vscale at hx
    obtain ⟨y, _, hxy⟩ := List.mem_map.mp hx
    rw [← hxy, hw0, zero_mul]

/-- C3 counterexample: at a concrete all-masked source item the checked
(spec-demanded) attention raises DegenerateInputError, but the attention
the code actually computes returns a plain value — the all-zero weight
vector (the float pipeline's 0/0 = NaN becomes 0/0 = 0 in exact rational
arithmetic), whose weights sum to 0 instead of 1.  No error of any kind is
raised by the code. -/
theorem attention_degenerate_counterexample :
    attentionWeightsChecked tinyParams [0] [[1], [2]] [0, 0] =
      Except.error "DegenerateInputError" ∧
    attentionWeights tinyParams [0] [[1], [2]] [0, 0] = [0, 0] ∧
    (attentionWeights tinyParams [0] [[1], [2]] [0, 0]).sum = 0 := by
  refine ⟨rfl, ?_, ?_⟩ <;>
    simp [attentionWeights, attentionUnnorm, tinyParams]

/-- C3 (amended): when every source-mask entry of an item is 0, the
attention performs no degeneracy check: it divides by the zero normalizer,
silently yielding an all-zero weight vector (NaN in the floating-point
pipeline) and the degenerate all-zero context vector; no error is
raised. -/
theorem attention_degenerate_silent (p : DecParams) (state : List ℚ)
    (rep : List (List ℚ)) (smask : List ℚ)
    (hz : ∀ m ∈ smask, m = 0) (hd : ∀ v ∈ rep, p.d ≤ v.length) :
    (∀ w ∈ attentionWeights p state rep smask, w = 0) ∧
    attentionContext p state rep smask = List.replicate p.d 0 := by
  have hw : ∀ w ∈ attentionWeights p state rep smask, w = 0 := by
    intro w hwmem
    obtain ⟨x, hx, hxw⟩ := List.mem_map.mp hwmem
    rw [← hxw, attentionUnnorm_zero_mask p state rep smask hz x hx, zero_div]
  refine ⟨hw, ?_⟩
  unfold attentionContext
  apply foldl_vadd_zeros
  intro z hzmem
  obtain ⟨w, hwm, v, hv, hzv⟩ := of_mem_zipWith _ _ _ z hzmem
  constructor
  · rw [hzv]
    unfold vscale
    rw [List.length_map]
    exact le_trans (by rw [List.length_replicate]) (hd v hv)
  · intro x hx
    rw [hzv] at hx
    unfold vscale at hx
    obtain ⟨y, _, hxy⟩ := List.mem_map.mp hx
    rw [← hxy, hw w hwm, zero_mul]

theorem attention_degenerate_silent_witness :
    (∀ m ∈ [(0 : ℚ), 0], m = 0) ∧
    (∀ v ∈ [[(1 : ℚ)], [2]], tinyParams.d ≤ v.length) ∧
    ((∀ w ∈ attentionWeights tinyParams [0] [[1], [2]] [0, 0], w = 0) ∧
      attentionContext tinyParams [0] [[1], [2]] [0, 0] =
        List.replicate tinyParams.d 0) :=
  ⟨by decide, by decide,
   attention_degenerate_silent tinyParams [0] [[1], [2]] [0, 0]
     (by decide) (by decide)⟩

theorem mkBatch_same_mask :
    ∀ (rep : List (List (List ℚ))) (marks : List (List Int))
      (mask : List (List ℚ)),
      ∀ it ∈ mkBatch rep mask marks mask, it.smask = it.tmask := by
  intro rep
  induction rep with
  | nil => intro marks mask it hit; simp [mkBatch] at hit
  | cons r rt ih =>
    intro marks mask it hit
    cases mask with
    | nil => simp [mkBatch] at hit
    | cons m mt =>
      cases marks with
      | nil => simp [mkBatch] at hit
      | cons k kt =>
        unfold mkBatch at hit
        rw [List.zip_cons_cons, List.zip_cons_cons,
            List.zipWith_cons_cons] at hit
        rcases List.mem_cons.mp hit with h1 | h2
        · rw [h1]
        · exact ih kt mt it h2

/-- C7: in the assembled training computation
(`use_decoder_on_representations`), the mask handed to `Decoder.cost` as
the source-representation attention mask is the very same tensor as the
target-sequence (punctuation-marks) mask: every assembled batch item
carries one and the same mask as both its source mask and its target
mask. -/
theorem use_decoder_same_mask (p : DecParams)
    (rep : List (List (List ℚ))) (marks : List (List Int))
    (mask : List (List ℚ)) :
    use_decoder_on_representations_cost p rep marks mask =
      Decoder.cost p (mkBatch rep mask marks mask) ∧
    ∀ it ∈ mkBatch rep mask marks mask, it.smask = it.tmask :=
  ⟨rfl, mkBatch_same_mask rep marks mask⟩

theorem use_decoder_same_mask_witness :
    (use_decoder_on_representations_cost tinyParams [[[1]]] [[2]] [[1]] =
      Decoder.cost tinyParams (mkBatch [[[1]]] [[1]] [[2]] [[1]])) ∧
    (DecItem.mk [[1]] [1] [2] [1]).smask =
      (DecItem.mk [[1]] [1] [2] [1]).tmask :=
  ⟨(use_decoder_same_mask tinyParams [[[1]]] [[2]] [[1]]).1,
   (use_decoder_same_mask tinyParams [[[1]]] [[2]] [[1]]).2
     (DecItem.mk [[1]] [1] [2] [1]) (by decide)⟩

theorem costSteps_eq_raw_mul (p : DecParams) (rep : List (List ℚ))
    (smask : List ℚ) :
    ∀ (l : List (Int × ℚ)) (s : List ℚ) (prev : Int),
      costSteps p rep smask s prev l =
        List.zipWith (· * ·) (rawCostSteps p rep smask s prev l)
          (l.map Prod.snd) := by
  intro l
  induction l with
  | nil => intro s prev; rfl
  | cons h t ih =>
    intro s prev
    obtain ⟨tok, m⟩ := h
    simp only [costSteps, rawCostSteps, List.map_cons,
      List.zipWith_cons_cons]
    rw [ih]

theorem zipWith_mul_idem :
    ∀ (raw tm : List ℚ), (∀ m ∈ tm, m * m = m) →
      List.zipWith (· * ·) (List.zipWith (· * ·) raw tm) tm =
        List.zipWith (· * ·) raw tm := by
  intro raw
  induction raw with
  | nil => intro tm _; rfl
  | cons r rt ih =>
    intro tm hm
    cases tm with
    | nil => rfl
    | cons m mt =>
      simp only [List.zipWith_cons_cons]
      rw [mul_assoc, hm m (by simp), ih mt (fun x hx => hm x (by simp [hx]))]

/-- C2: `Decoder.cost` returns the sum over all (time, batch) entries of
the raw per-step negative log-likelihood cost matrix multiplied
elementwise by the target mask, divided by the number of batch items (not
by the number of unmasked tokens).  The code multiplies by the mask twice
(once inside `cost_matrix`, once in `Decoder.cost`), which coincides with
the single masking because mask entries are 0 or 1. -/
theorem decoder_cost_masked_mean (p : DecParams) (batch : List DecItem)
    (hv : ∀ it ∈ batch, it.tmask.length = it.tgt.length ∧
      ∀ m ∈ it.tmask, m = 0 ∨ m = 1) :
    Decoder.cost p batch =
      ((batch.map (fun it =>
          (List.zipWith (· * ·) (rawCostItem p it) it.tmask).sum)).sum) /
        (batch.length : ℚ) := by
  unfold Decoder.cost
  congr 1
  congr 1
  apply List.map_congr_left
  intro it hit
  obtain ⟨hlen, hbin⟩ := hv it hit
  unfold itemMaskedCost cost_matrix_item rawCostItem
  rw [costSteps_eq_raw_mul]
  rw [List.map_snd_zip it.tgt it.tmask (by omega)]
  exact congrArg List.sum
    (zipWith_mul_idem _ it.tmask
      (fun m hm => by
        rcases hbin m hm with h0 | h1
        · rw [h0]; ring
        · rw [h1]; ring))

theorem decoder_cost_masked_mean_witness :
    (∀ it ∈ [DecItem.mk [[1]] [1] [3] [1]],
      it.tmask.length = it.tgt.length ∧
        ∀ m ∈ it.tmask, m = 0 ∨ m = 1) ∧
    Decoder.cost tinyParams [DecItem.mk [[1]] [1] [3] [1]] =
      (([DecItem.mk [[1]] [1] [3] [1]].map (fun it =>
          (List.zipWith (· * ·) (rawCostItem tinyParams it)
            it.tmask).sum)).sum) /
        (([DecItem.mk [[1]] [1] [3] [1]] : List DecItem).length : ℚ) :=
  ⟨by decide,
   decoder_cost_masked_mean tinyParams [DecItem.mk [[1]] [1] [3] [1]]
     (by decide)⟩

theorem costSteps_append_source (p : DecParams) (rep repPad : List (List ℚ))
    (smask smaskPad : List ℚ) (hlen : smask.length = rep.length)
    (hz : ∀ m ∈ smaskPad, m = 0) (hd : ∀ v ∈ repPad, v.length = p.d) :
    ∀ (l : List (Int × ℚ)) (s : List ℚ) (prev : Int),
      costSteps p (rep ++ repPad) (smask ++ smaskPad) s prev l =
        costSteps p rep smask s prev l := by
  intro l
  induction l with
  | nil => intro s prev; rfl
  | cons h t ih =>
    intro s prev
    obtain ⟨tok, m⟩ := h
    simp only [costSteps]
    rw [attentionContext_append_zero p s rep repPad smask smaskPad hlen hz hd,
        ih]

theorem costSteps_append_targets (p : DecParams) (rep : List (List ℚ))
    (smask : List ℚ) :
    ∀ (l1 l2 : List (Int × ℚ)) (s : List ℚ) (prev : Int),
      ∃ s2 prev2, costSteps p rep smask s prev (l1 ++ l2) =
        costSteps p rep smask s prev l1 ++
          costSteps p rep smask s2 prev2 l2 := by
  intro l1
  induction l1 with
  | nil => intro l2 s prev; exact ⟨s, prev, rfl⟩
  | cons h t ih =>
    intro l2 s prev
    obtain ⟨tok, m⟩ := h
    obtain ⟨s2, prev2, heq⟩ := ih l2
      (p.step s (p.feedbackOf prev) (attentionContext p s rep smask) m) tok
    refine ⟨s2, prev2, ?_⟩
    simp only [costSteps, List.cons_append]
    exact congrArg (List.cons _) heq

theorem costSteps_length (p : DecParams) (rep : List (List ℚ))
    (smask : List ℚ) :
    ∀ (l : List (Int × ℚ)) (s : List ℚ) (prev : Int),
      (costSteps p rep smask s prev l).length = l.length := by
  intro l
  induction l with
  | nil => intro s prev; rfl
  | cons h t ih =>
    intro s prev
    obtain ⟨tok, m⟩ := h
    simp only [costSteps, List.length_cons]
    rw [ih]

theorem zipWith_mul_sum_zero (cs ms : List ℚ) (hz : ∀ m ∈ ms, m = 0) :
    (List.zipWith (· * ·) cs ms).sum = 0 := by
  apply List.sum_eq_zero
  intro x hx
  obtain ⟨c, _, m, hm, hxc⟩ := of_mem_zipWith _ _ _ x hx
  rw [hxc, hz m hm, mul_zero]

theorem itemMaskedCost_pad (p : DecParams) (it it' : DecItem)
    (hval : ItemValid it) (hpad : ItemPadded p.d it it') :
    itemMaskedCost p it' = itemMaskedCost p it := by
  obtain ⟨hs, ht, hne⟩ := hval
  obtain ⟨repPad, smaskPad, tgtPad, tmaskPad, hr, hsm, htg, htm, hpl, hptl,
    hz1, hz2, hdl⟩ := hpad
  unfold itemMaskedCost cost_matrix_item
  rw [hr, hsm, htg, htm]
  rw [headD_append_of_ne_nil it.rep repPad hne []]
  rw [List.zip_append ht.symm]
  rw [costSteps_append_source p it.rep repPad it.smask smaskPad hs hz1 hdl]
  obtain ⟨s2, prev2, hsplit⟩ := costSteps_append_targets p it.rep it.smask
    (it.tgt.zip it.tmask) (tgtPad.zip tmaskPad)
    (p.init (it.rep.headD [])) (-1)
  rw [hsplit]
  rw [List.zipWith_append _ _ _ _ _
        (by rw [costSteps_length, List.length_zip]; omega)]
  rw [List.sum_append,
      zipWith_mul_sum_zero _ tmaskPad hz2, add_zero]

/-- C1: the scalar training cost of `Decoder.cost` is unchanged when
additional fully-masked positions (mask value 0) are appended to the
source representation/mask and to the target sequence/mask of every item
of a structurally valid batch. -/
theorem decoder_cost_pad_invariant (p : DecParams)
    (batch batch' : List DecItem)
    (h : List.Forall₂ (fun it it' => ItemValid it ∧ ItemPadded p.d it it')
      batch batch') :
    Decoder.cost p batch' = Decoder.cost p batch := by
  have hsum : (batch'.map (itemMaskedCost p)).sum =
      (batch.map (itemMaskedCost p)).sum := by
    induction h with
    | nil => rfl
    | cons hrel htail ih =>
      simp only [List.map_cons, List.sum_cons, ih,
        itemMaskedCost_pad p _ _ hrel.1 hrel.2]
  unfold Decoder.cost
  rw [hsum, ← h.length_eq]

theorem decoder_cost_pad_invariant_witness :
    List.Forall₂
      (fun it it' => ItemValid it ∧ ItemPadded tinyParams.d it it')
      [DecItem.mk [[1]] [1] [3] [1]]
      [DecItem.mk [[1], [2]] [1, 0] [3, 4] [1, 0]] ∧
    Decoder.cost tinyParams [DecItem.mk [[1], [2]] [1, 0] [3, 4] [1, 0]] =
      Decoder.cost tinyParams [DecItem.mk [[1]] [1] [3] [1]] := by
  have hf : List.Forall₂
      (fun it it' => ItemValid it ∧ ItemPadded tinyParams.d it it')
      [DecItem.mk [[1]] [1] [3] [1]]
      [DecItem.mk [[1], [2]] [1, 0] [3, 4] [1, 0]] := by
    refine List.Forall₂.cons ⟨⟨by decide, by decide, by decide⟩, ?_⟩
      List.Forall₂.nil
    exact ⟨[[2]], [0], [4], [0], by decide, by decide, by decide, by decide,
      by decide, by decide, by decide, by decide, by decide⟩
  exact ⟨hf, decoder_cost_pad_invariant tinyParams _ _ hf⟩

theorem dictInsert_fst (acc : ParamDict) (kv : String × List ℕ) :
    (dictInsert acc kv).map Prod.fst =
      if kv.1 ∈ acc.map Prod.fst then acc.map Prod.fst
      else acc.map Prod.fst ++ [kv.1] := by
  by_cases hmem : kv.1 ∈ acc.map Prod.fst
  · rw [if_pos hmem]
    unfold dictInsert
    rw [if_pos hmem, List.map_map]
    apply List.map_congr_left
    intro e _
    by_cases hcase : e.1 = kv.1
    · simp [hcase]
    · simp [hcase]
  · rw [if_neg hmem]
    unfold dictInsert
    rw [if_neg hmem, List.map_append]
    rfl

theorem dictInsert_nodup (acc : ParamDict) (kv : String × List ℕ)
    (h : (acc.map Prod.fst).Nodup) :
    ((dictInsert acc kv).map Prod.fst).Nodup := by
  rw [dictInsert_fst]
  by_cases hmem : kv.1 ∈ acc.map Prod.fst
  · rw [if_pos hmem]; exact h
  · rw [if_neg hmem]
    refine List.Nodup.append h (List.nodup_singleton _) ?_
    intro a ha hb
    rw [List.mem_singleton] at hb
    exact hmem (hb ▸ ha)

theorem foldl_dictInsert_nodup (dct : ParamDict) :
    ∀ acc : ParamDict, (acc.map Prod.fst).Nodup →
      ((dct.foldl dictInsert acc).map Prod.fst).Nodup := by
  induction dct with
  | nil => exact fun acc h => h
  | cons kv t ih => exact fun acc h => ih _ (dictInsert_nodup acc kv h)

theorem dictMergeAll_nodup_aux (ds : List ParamDict) :
    ∀ acc : ParamDict, (acc.map Prod.fst).Nodup →
      ((ds.foldl (fun acc dct => dct.foldl dictInsert acc) acc).map
        Prod.fst).Nodup := by
  induction ds with
  | nil => exact fun acc h => h
  | cons dct t ih => exact fun acc h => ih _ (foldl_dictInsert_nodup dct acc h)

theorem dictMergeAll_nodup (ds : List ParamDict) :
    ((dictMergeAll ds).map Prod.fst).Nodup :=
  dictMergeAll_nodup_aux ds [] (by simp)

theorem dictInsert_mem_self_eq (acc : ParamDict) (kv : String × List ℕ)
    (h : (acc.map Prod.fst).Nodup) (hkv : kv ∈ acc) :
    dictInsert acc kv = acc := by
  unfold dictInsert
  rw [if_pos (List.mem_map_of_mem Prod.fst hkv)]
  have : ∀ e ∈ acc,
      (if e.1 = kv.1 then (e.1, kv.2) else e) = id e := by
    intro e he
    by_cases hcase : e.1 = kv.1
    · have heq : e = kv := List.inj_on_of_nodup_map h he hkv hcase
      rw [if_pos hcase, heq, Prod.mk.eta]
      rfl
    · rw [if_neg hcase]; rfl
  rw [List.map_congr_left this, List.map_id]

theorem mem_dictInsert_of_ne (acc : ParamDict) (kv kv' : String × List ℕ)
    (h : kv ∈ acc) (hne : kv.1 ≠ kv'.1) : kv ∈ dictInsert acc kv' := by
  unfold dictInsert
  split
  · refine List.mem_map.mpr ⟨kv, h, ?_⟩
    rw [if_neg hne]
  · exact List.mem_append_left _ h

theorem mem_dictInsert_self (acc : ParamDict) (kv : String × List ℕ) :
    kv ∈ dictInsert acc kv := by
  unfold dictInsert
  split
  case isTrue hmem =>
    obtain ⟨e, he, hef⟩ := List.mem_map.mp hmem
    refine List.mem_map.mpr ⟨e, he, ?_⟩
    rw [if_pos hef, hef, Prod.mk.eta]
  case isFalse =>
    exact List.mem_append_right _ (List.mem_singleton.mpr rfl)

theorem mem_foldl_dictInsert (tl : ParamDict) :
    ∀ (acc : ParamDict) (kv : String × List ℕ), kv ∈ acc →
      (∀ kv' ∈ tl, kv.1 ≠ kv'.1) → kv ∈ tl.foldl dictInsert acc := by
  induction tl with
  | nil => intro acc kv h _; exact h
  | cons kv' t ih =>
    intro acc kv h hne
    exact ih _ kv (mem_dictInsert_of_ne acc kv kv' h (hne kv' (by simp)))
      (fun x hx => hne x (by simp [hx]))

theorem mem_after_merge :
    ∀ (dct : ParamDict), (dct.map Prod.fst).Nodup →
      ∀ (acc : ParamDict) (kv : String × List ℕ), kv ∈ dct →
        kv ∈ dct.foldl dictInsert acc := by
  intro dct
  induction dct with
  | nil => intro _ acc kv h; cases h
  | cons kv0 t ih =>
    intro hnd acc kv h
    have hnotin : kv0.1 ∉ t.map Prod.fst :=
      (List.nodup_cons.mp (by simpa using hnd)).1
    rcases List.mem_cons.mp h with rfl | ht
    · apply mem_foldl_dictInsert t _ kv (mem_dictInsert_self acc kv)
      intro kv' hkv' heq
      exact hnotin (heq ▸ List.mem_map_of_mem Prod.fst hkv')
    · exact ih (List.nodup_cons.mp (by simpa using hnd)).2 _ kv ht

theorem foldl_dictInsert_replay (dct : ParamDict) :
    ∀ acc : ParamDict, (acc.map Prod.fst).Nodup →
      (∀ kv ∈ dct, kv ∈ acc) → dct.foldl dictInsert acc = acc := by
  induction dct with
  | nil => intro acc _ _; rfl
  | cons kv t ih =>
    intro acc hnd hall
    rw [List.foldl_cons,
        dictInsert_mem_self_eq acc kv hnd (hall kv (by simp))]
    exact ih acc hnd (fun x hx => hall x (by simp [hx]))

/-- C9: the reported total parameter count sums the element counts of the
merged, name-keyed parameter dictionary, whose names are pairwise
distinct; merging the decoder's parameter dict a second time (as would
happen if both the training and the sampling computation contributed the
shared decoder parameters again) leaves the reported total unchanged, so
every decoder parameter is counted exactly once. -/
theorem print_parameteters_distinct_once (models : List ParamDict)
    (decoderDict : ParamDict)
    (hnd : (decoderDict.map Prod.fst).Nodup) :
    ((dictMergeAll (models ++ [decoderDict])).map Prod.fst).Nodup ∧
    print_parameteters (models ++ [decoderDict]) =
      ((dictMergeAll (models ++ [decoderDict])).map
        (fun e => e.2.prod)).sum ∧
    print_parameteters (models ++ [decoderDict, decoderDict]) =
      print_parameteters (models ++ [decoderDict]) := by
  refine ⟨dictMergeAll_nodup _, rfl, ?_⟩
  unfold print_parameteters
  congr 1
  have h1 : dictMergeAll (models ++ [decoderDict]) =
      decoderDict.foldl dictInsert (dictMergeAll models) := by
    unfold dictMergeAll
    rw [List.foldl_append]
    rfl
  have h2 : dictMergeAll (models ++ [decoderDict, decoderDict]) =
      decoderDict.foldl dictInsert
        (decoderDict.foldl dictInsert (dictMergeAll models)) := by
    unfold dictMergeAll
    rw [List.foldl_append]
    rfl
  rw [h1, h2]
  congr 1
  apply foldl_dictInsert_replay
  · exact foldl_dictInsert_nodup decoderDict _ (dictMergeAll_nodup models)
  · exact fun kv hkv => mem_after_merge decoderDict hnd _ kv hkv

theorem print_parameteters_distinct_once_witness :
    (([("decW", [4]), ("decb", [2])].map Prod.fst).Nodup) ∧
    (((dictMergeAll ([[("encW", [2, 3])]] ++
        [[("decW", [4]), ("decb", [2])]])).map Prod.fst).Nodup ∧
    print_parameteters ([[("encW", [2, 3])]] ++
        [[("decW", [4]), ("decb", [2])]]) =
      ((dictMergeAll ([[("encW", [2, 3])]] ++
        [[("decW", [4]), ("decb", [2])]])).map (fun e => e.2.prod)).sum ∧
    print_parameteters ([[("encW", [2, 3])]] ++
        [[("decW", [4]), ("decb", [2])], [("decW", [4]), ("decb", [2])]]) =
      print_parameteters ([[("encW", [2, 3])]] ++
        [[("decW", [4]), ("decb", [2])]])) :=
  ⟨by decide,
   print_parameteters_distinct_once [[("encW", [2, 3])]]
     [("decW", [4]), ("decb", [2])] (by decide)⟩
